import Mathlib

/-!
Verification of the enhancement-simulator engine (`src/App.jsx`).

The JavaScript source is shallowly embedded below:

* `createLCG`             → `lcgInit` / `lcgNext` / `lcgState` / `lcgValue`
* `percentile`            → `percentile` (with the interpolation core `interpAt`)
* `makeHistogram`         → `makeHistogram` (with `binOf`)
* `simulateStarsOnly`     → `starStep` / `starsOnlyLoop` / `simulateStarsOnly`
* `simulateFullRun`       → `starStep` / `fullRunLoop` / `simulateFullRun`
* `worstCaseStarsOnly`    → `wcStarStep` / `wcStarsLoop` / `worstCaseStarsOnly`
* `worstCaseFull`         → `wcStarStep` / `wcFullLoop` / `worstCaseFull`

JavaScript numbers are modelled by `ℚ` (all arithmetic performed by the
engine on probabilities, gold and random draws is exact in the source's
value range), counters by `ℕ`.  The unbounded `for (;;)` / `while` loops of
the source are modelled with explicit fuel, one unit per loop iteration;
`none` means the fuel ran out before the loop finished.  A random source
(`rand`) is modelled as a stream `ℕ → ℚ` together with the index of the
next unconsumed draw, mirroring the stateful generator; note that the
source's `guaranteed || rand() < p` short-circuits, so a draw is consumed
only when the attempt is not pity-guaranteed.
-/

/-- Modulus of the LCG, `2^32`. -/
def lcgModulus : ℕ := 4294967296

/-- Model of `createLCG`: initial state `seed >>> 0 || 1`, i.e. `seed` reduced to an
unsigned 32-bit value, replaced by `1` when that value is `0`. -/
def lcgInit (seed : ℤ) : ℕ :=
  if (seed % (lcgModulus : ℤ)).toNat = 0 then 1 else (seed % (lcgModulus : ℤ)).toNat

/-- One LCG state update: `state = (1664525 * state + 1013904223) >>> 0`. -/
def lcgNext (state : ℕ) : ℕ :=
  (1664525 * state + 1013904223) % lcgModulus

/-- State of the generator constructed from `seed` after `n` updates. -/
def lcgState (seed : ℤ) : ℕ → ℕ
  | 0 => lcgInit seed
  | n + 1 => lcgNext (lcgState seed n)

/-- The `n`-th value (0-indexed) returned by the generator: each call first
updates the state and then returns `state / 0xffffffff`. -/
def lcgValue (seed : ℤ) (n : ℕ) : ℚ :=
  (lcgState seed (n + 1) : ℚ) / 4294967295

/-- The generator from `seed`, viewed as a stream of draws. -/
def lcgStream (seed : ℤ) : ℕ → ℚ := lcgValue seed

/-- Interpolation core of `percentile` at a real position `pos`:
`base = Math.floor(pos)`, `rest = pos - base`, linear interpolation between
`sortedArr[base]` and `sortedArr[base+1]` when the latter exists, else
`sortedArr[base]`.  (`Math.floor` is `Nat.floor` here: every position the
source produces for `p ≥ 0` is non-negative.) -/
def interpAt (l : List ℚ) (pos : ℚ) : ℚ :=
  let base := Nat.floor pos
  let rest := pos - (base : ℚ)
  if base + 1 < l.length then
    l.getD base 0 + rest * (l.getD (base + 1) 0 - l.getD base 0)
  else
    l.getD base 0

/-- Model of `percentile(sortedArr, p)` from the source: `0` on the empty list, else
interpolation at position `(length - 1) * p`. -/
def percentile (l : List ℚ) (p : ℚ) : ℚ :=
  if l.length = 0 then 0 else interpAt l (((l.length : ℚ) - 1) * p)

/-- Bin key of a sample: `Math.floor(v / binSize) * binSize`. -/
def binOf (binSize v : ℚ) : ℚ := (⌊v / binSize⌋ : ℚ) * binSize

/-- Model of `makeHistogram(arr, binSize)`: count how many samples fall in each bin
key, then list the (key, count) pairs sorted ascending by key.  The source
accumulates counts in a `Map` keyed by bin and sorts its entries; since the
keys are distinct the result is exactly the sorted deduplicated key list
paired with the occurrence counts of the mapped sample list. -/
def makeHistogram (arr : List ℚ) (binSize : ℚ) : List (ℚ × ℕ) :=
  let m := arr.map (binOf binSize)
  ((m.dedup).mergeSort (fun a b => decide (a ≤ b))).map (fun k => (k, m.count k))

/-- The configuration record handed to the simulators (`params` in the
source). -/
structure Params where
  goldPerAttempt : ℚ
  starProbs : List ℚ
  finalProb : ℚ
  starPityThreshold : ℕ
  finalPityThreshold : ℕ
  starPityResetsOnAnyFail : Bool
  numStars : ℕ

/-- Mutable state of a stochastic run.  `idx` is the index of the next
unconsumed draw of the random stream; `finalPityFails` is unused by the
stars-only simulator (the source keeps no such variable there) and is
simply carried unchanged by the star steps. -/
structure SimState where
  attempts : ℕ
  gold : ℚ
  starPityFails : List ℕ
  starAttempts : List ℕ
  finalPityFails : ℕ
  currentStars : ℕ
  idx : ℕ
deriving DecidableEq, Repr

/-- Fresh run state: all counters zero, stream position `n`. -/
def initState (p : Params) (n : ℕ) : SimState :=
  { attempts := 0, gold := 0,
    starPityFails := List.replicate p.numStars 0,
    starAttempts := List.replicate p.numStars 0,
    finalPityFails := 0, currentStars := 0, idx := n }

/-- Model of `handleFailReset`: wipe every star's pity counter when the
reset-on-any-failure flag is set, else keep the counters. -/
def applyFailReset (p : Params) (fails : List ℕ) : List ℕ :=
  if p.starPityResetsOnAnyFail then List.replicate p.numStars 0 else fails

/-- One attempt against star `currentStars` — the shared loop body of
`simulateStarsOnly` and of the star-building phase of `simulateFullRun`:
pay one attempt, succeed iff pity guarantees it or a fresh draw is below
the star's probability; on success reset that star's pity and advance, on
failure bump that star's pity, apply the reset rule and wipe progress. -/
def starStep (p : Params) (r : ℕ → ℚ) (s : SimState) : SimState :=
  let i := s.currentStars
  let s1 := { s with attempts := s.attempts + 1, gold := s.gold + p.goldPerAttempt,
                     starAttempts := s.starAttempts.set i (s.starAttempts.getD i 0 + 1) }
  if p.starPityThreshold ≤ s.starPityFails.getD i 0 then
    { s1 with starPityFails := s.starPityFails.set i 0, currentStars := i + 1 }
  else if r s.idx < p.starProbs.getD i 0 then
    { s1 with starPityFails := s.starPityFails.set i 0, currentStars := i + 1,
              idx := s.idx + 1 }
  else
    { s1 with
        starPityFails := applyFailReset p (s.starPityFails.set i (s.starPityFails.getD i 0 + 1)),
        currentStars := 0, idx := s.idx + 1 }

/-- The `while (currentStars < numStars)` loop of `simulateStarsOnly`,
with explicit fuel (one unit per attempt). -/
def starsOnlyLoop (p : Params) (r : ℕ → ℚ) : ℕ → SimState → Option SimState
  | 0, _ => none
  | fuel + 1, s =>
    if s.currentStars < p.numStars then starsOnlyLoop p r fuel (starStep p r s) else some s

/-- Model of `simulateStarsOnly(params, rand)` started at stream position `n`;
returns the final run state (`attempts`, `gold`, `starAttempts`, and in
`idx` the position at which the shared stream continues). -/
def simulateStarsOnly (p : Params) (r : ℕ → ℚ) (fuel n : ℕ) : Option SimState :=
  starsOnlyLoop p r fuel (initState p n)

/-- The unbounded `for (;;)` loop of `simulateFullRun`: while stars are
missing run the same star step; once all stars are built make the final
attempt — success (pity-guaranteed or draw below `finalProb`) returns the
outcome, failure bumps the persistent final pity counter, applies the
reset rule and restarts the star phase. -/
def fullRunLoop (p : Params) (r : ℕ → ℚ) : ℕ → SimState → Option SimState
  | 0, _ => none
  | fuel + 1, s =>
    if s.currentStars < p.numStars then fullRunLoop p r fuel (starStep p r s)
    else
      let s1 := { s with attempts := s.attempts + 1, gold := s.gold + p.goldPerAttempt }
      if p.finalPityThreshold ≤ s.finalPityFails then some s1
      else if r s.idx < p.finalProb then some { s1 with idx := s.idx + 1 }
      else
        fullRunLoop p r fuel
          { s1 with finalPityFails := s.finalPityFails + 1,
                    starPityFails := applyFailReset p s.starPityFails,
                    currentStars := 0, idx := s.idx + 1 }

/-- Model of `simulateFullRun(params, rand)` started at stream position `n`. -/
def simulateFullRun (p : Params) (r : ℕ → ℚ) (fuel n : ℕ) : Option SimState :=
  fullRunLoop p r fuel (initState p n)

/-- State of the deterministic worst-case calculators (no randomness, no
gold accumulation inside the loop — gold is `attempts * goldPerAttempt` at
return).  `finalPityFails` is unused by `worstCaseStarsOnly`. -/
structure WCState where
  attempts : ℕ
  starPityFails : List ℕ
  finalPityFails : ℕ
  currentStars : ℕ
deriving DecidableEq, Repr

/-- A worst-case outcome: `Infinity` in the source becomes the explicit
`unbounded` tag. -/
inductive WCResult where
  | unbounded
  | finite (attempts : ℕ) (gold : ℚ)
deriving DecidableEq, Repr

/-- Fresh worst-case state. -/
def wcInit (p : Params) : WCState :=
  { attempts := 0, starPityFails := List.replicate p.numStars 0,
    finalPityFails := 0, currentStars := 0 }

/-- One adversarial star attempt: succeed iff pity guarantees it, else the
pity counter grows and progress wipes to star 0. -/
def wcStarStep (p : Params) (s : WCState) : WCState :=
  let i := s.currentStars
  if p.starPityThreshold ≤ s.starPityFails.getD i 0 then
    { s with attempts := s.attempts + 1, starPityFails := s.starPityFails.set i 0,
             currentStars := i + 1 }
  else
    { s with attempts := s.attempts + 1,
             starPityFails := s.starPityFails.set i (s.starPityFails.getD i 0 + 1),
             currentStars := 0 }

/-- The `while (currentStars < numStars)` loop of `worstCaseStarsOnly`. -/
def wcStarsLoop (p : Params) : ℕ → WCState → Option WCState
  | 0, _ => none
  | fuel + 1, s =>
    if s.currentStars < p.numStars then wcStarsLoop p fuel (wcStarStep p s) else some s

/-- Model of `worstCaseStarsOnly(params)`: unbounded as soon as the reset-on-fail
flag is set, else the deterministic adversarial loop. -/
def worstCaseStarsOnly (p : Params) (fuel : ℕ) : Option WCResult :=
  if p.starPityResetsOnAnyFail then some WCResult.unbounded
  else
    (wcStarsLoop p fuel (wcInit p)).map
      (fun s => WCResult.finite s.attempts ((s.attempts : ℚ) * p.goldPerAttempt))

/-- The `for (;;)` loop of `worstCaseFull`: adversarial star phase, then an
adversarial final attempt that succeeds only at final pity. -/
def wcFullLoop (p : Params) : ℕ → WCState → Option ℕ
  | 0, _ => none
  | fuel + 1, s =>
    if s.currentStars < p.numStars then wcFullLoop p fuel (wcStarStep p s)
    else if p.finalPityThreshold ≤ s.finalPityFails then some (s.attempts + 1)
    else
      wcFullLoop p fuel
        { s with attempts := s.attempts + 1, finalPityFails := s.finalPityFails + 1,
                 currentStars := 0 }

/-- Model of `worstCaseFull(params)`. -/
def worstCaseFull (p : Params) (fuel : ℕ) : Option WCResult :=
  if p.starPityResetsOnAnyFail then some WCResult.unbounded
  else
    (wcFullLoop p fuel (wcInit p)).map
      (fun a => WCResult.finite a ((a : ℚ) * p.goldPerAttempt))

/-- Configuration of diagnostics test 1 (`Scenario A`): three stars, every
probability `1`, pity thresholds `6`, no reset-on-fail. -/
def cfgA : Params :=
  { goldPerAttempt := 100, starProbs := [1, 1, 1], finalProb := 1,
    starPityThreshold := 6, finalPityThreshold := 6,
    starPityResetsOnAnyFail := false, numStars := 3 }

/-- Configuration of diagnostics test 2 (`Scenario B`): two stars, every
probability `0`, pity thresholds `2`, no reset-on-fail. -/
def cfgB : Params :=
  { goldPerAttempt := 100, starProbs := [0, 0], finalProb := 0,
    starPityThreshold := 2, finalPityThreshold := 2,
    starPityResetsOnAnyFail := false, numStars := 2 }

/-- A non-terminating configuration (§7): reset-on-any-failure enabled and
every probability exactly `0`, with a positive pity threshold. -/
def cfgC : Params :=
  { goldPerAttempt := 100, starProbs := [0], finalProb := 0,
    starPityThreshold := 1, finalPityThreshold := 1,
    starPityResetsOnAnyFail := true, numStars := 1 }

/-- A minimal terminating configuration used to instantiate universally
quantified theorems: one star, probability `0`, pity thresholds `0`
(every attempt is pity-guaranteed), no reset-on-fail. -/
def cfgD : Params :=
  { goldPerAttempt := 7, starProbs := [0], finalProb := 0,
    starPityThreshold := 0, finalPityThreshold := 0,
    starPityResetsOnAnyFail := false, numStars := 1 }

/-- Worst-case attempts to build `k` stars starting from all-zero pity
counters with per-star pity threshold `T`:
`B 0 = 0`, `B (k+1) = (T+1) * (B k + 1)`. -/
def pityBuildCost (T : ℕ) : ℕ → ℕ
  | 0 => 0
  | k + 1 => (T + 1) * (pityBuildCost T k + 1)

/-- Worst-case attempts to finish star `k` when its pity counter is `v`
and all earlier stars are built with clean pity: `T - v` failures, each
followed by rebuilding stars `0..k-1` (`pityBuildCost T k` attempts), then
one guaranteed success. -/
def starFinishCost (T k v : ℕ) : ℕ := (T - v) * (pityBuildCost T k + 1) + 1

/-- Remaining worst-case attempts of the star phase from a state with
current star `c` and pity counters `pity` (stars below `c` clean). -/
def remStars (T N : ℕ) (pity : List ℕ) (c : ℕ) : ℕ :=
  ∑ k ∈ Finset.Ico c N, starFinishCost T k (pity.getD k 0)

/-- Remaining worst-case attempts of a full run from a state with current
star `c`, star pity counters `pity` and final pity counter `fp`. -/
def remFull (T F N : ℕ) (pity : List ℕ) (c fp : ℕ) : ℕ :=
  remStars T N pity c + 1 + (F - fp) * (pityBuildCost T N + 1)

/-- Forget the fields of a stochastic state that the worst-case state does
not track (gold, per-star attempt counts, stream position). -/
def simToWC (s : SimState) : WCState :=
  { attempts := s.attempts, starPityFails := s.starPityFails,
    finalPityFails := s.finalPityFails, currentStars := s.currentStars }

/-! ### List helper lemmas -/

theorem getD_set_self {α : Type} (l : List α) (i : ℕ) (a d : α) (h : i < l.length) :
    (l.set i a).getD i d = a := by
  rw [List.getD_eq_getElem _ _ (by simpa using h)]
  exact List.getElem_set_self _

theorem getD_set_other {α : Type} (l : List α) {i j : ℕ} (a d : α) (h : i ≠ j) :
    (l.set i a).getD j d = l.getD j d := by
  by_cases hj : j < l.length
  · rw [List.getD_eq_getElem _ _ (by simpa using hj), List.getD_eq_getElem _ _ hj]
    exact List.getElem_set_ne h _
  · rw [List.getD_eq_default _ _ (by simpa using Nat.le_of_not_lt hj),
      List.getD_eq_default _ _ (Nat.le_of_not_lt hj)]

theorem getD_replicate_zero (n k : ℕ) : (List.replicate n (0 : ℕ)).getD k 0 = 0 := by
  by_cases hk : k < n
  · rw [List.getD_eq_getElem _ _ (by simpa using hk)]
    simp
  · exact List.getD_eq_default _ _ (by simpa using Nat.le_of_not_lt hk)

theorem sum_set_getD_succ (l : List ℕ) : ∀ i : ℕ, i < l.length →
    (l.set i (l.getD i 0 + 1)).sum = l.sum + 1 := by
  induction l with
  | nil => intro i h; simp at h
  | cons a t ih =>
    intro i h
    cases i with
    | zero => simp [List.getD]; omega
    | succ i =>
      have ht : i < t.length := by simpa using h
      simp only [List.set, List.getD_cons_succ, List.sum_cons, ih i ht]
      omega

/-! ### Bounds on the deterministic random source -/

theorem lcgState_lt (seed : ℤ) : ∀ n, lcgState seed n < lcgModulus := by
  intro n
  cases n with
  | zero =>
    simp only [lcgState, lcgInit]
    split
    · simp [lcgModulus]
    · have h0 : (0 : ℤ) ≤ seed % (lcgModulus : ℤ) :=
        Int.emod_nonneg seed (by simp [lcgModulus])
      have : seed % (lcgModulus : ℤ) < (lcgModulus : ℤ) :=
        Int.emod_lt_of_pos seed (by simp [lcgModulus])
      exact (Int.toNat_lt h0).mpr this
  | succ n =>
    simp only [lcgState, lcgNext]
    exact Nat.mod_lt _ (by simp [lcgModulus])

theorem lcgValue_nonneg (seed : ℤ) (n : ℕ) : 0 ≤ lcgValue seed n := by
  unfold lcgValue
  positivity

theorem lcgValue_le_one (seed : ℤ) (n : ℕ) : lcgValue seed n ≤ 1 := by
  unfold lcgValue
  rw [div_le_one (by norm_num)]
  have h := lcgState_lt seed (n + 1)
  have : lcgState seed (n + 1) ≤ 4294967295 := by
    unfold lcgModulus at h; omega
  exact_mod_cast this

/-- C4 (counterexample): the draw returned by the generator is *not* always
strictly below `1`: the generator constructed from seed `653637408` returns
exactly `1` as its first value, because the state reaches `2^32 - 1` and the
source divides by `0xffffffff = 2^32 - 1`, not by `2^32`. -/
theorem lcg_draw_not_lt_one : ¬ lcgValue 653637408 0 < 1 := by
  have h : lcgState 653637408 1 = 4294967295 := by decide
  unfold lcgValue
  rw [h]
  norm_num

/-- C4 (amended): every value drawn from the deterministic random source
lies in the closed interval `[0, 1]`: for every integer seed and every
index `n`, the `n`-th value is `≥ 0` and `≤ 1` (and the bound `1` is
attained, see the counterexample). -/
theorem lcg_draws_in_unit_interval (seed : ℤ) (n : ℕ) :
    0 ≤ lcgValue seed n ∧ lcgValue seed n ≤ 1 :=
  ⟨lcgValue_nonneg seed n, lcgValue_le_one seed n⟩

/-! ### Histogram lemmas -/

theorem mergeSort_rat_sorted_le (m : List ℚ) :
    (m.mergeSort (fun a b => decide (a ≤ b))).Sorted (· ≤ ·) := by
  have h := @List.sorted_mergeSort ℚ (fun a b => decide (a ≤ b))
    (by intro a b c hab hbc; simp only [decide_eq_true_eq] at *; exact le_trans hab hbc)
    (by intro a b; simpa using le_total a b) m
  exact h.imp (by intro a b hab; simpa using hab)

theorem histogram_keys_sorted_lt (m : List ℚ) :
    (m.dedup.mergeSort (fun a b => decide (a ≤ b))).Sorted (· < ·) := by
  refine (mergeSort_rat_sorted_le m.dedup).lt_of_le ?_
  exact (List.mergeSort_perm m.dedup _).nodup_iff.mpr (List.nodup_dedup m)

/-- C9: for every sample list and positive bin width, `makeHistogram`
(a) gives every sample a bin with key `⌊value / binWidth⌋ * binWidth`,
(b) reports for each listed bin exactly the number of samples mapped to
that key, every listed count being positive (zero-count bins are omitted),
(c) lists the bins strictly ascending by bin start, and
(d) has counts summing to the number of samples;
concretely, bin width `5` over `[3, 3, 7, 12]` yields exactly the bins
`(0, 2), (5, 1), (10, 1)`. -/
theorem histogram_spec :
    (∀ (arr : List ℚ) (W : ℚ), 0 < W →
      (∀ v ∈ arr, ∃ c, (binOf W v, c) ∈ makeHistogram arr W) ∧
      (∀ pr ∈ makeHistogram arr W,
        pr.2 = (arr.map (binOf W)).count pr.1 ∧ 0 < pr.2) ∧
      ((makeHistogram arr W).map Prod.fst).Sorted (· < ·) ∧
      ((makeHistogram arr W).map Prod.snd).sum = arr.length) ∧
    makeHistogram [3, 3, 7, 12] 5 = [(0, 2), (5, 1), (10, 1)] := by
  constructor
  · intro arr W _
    set m := arr.map (binOf W) with hm
    have hperm : (m.dedup.mergeSort (fun a b => decide (a ≤ b))).Perm m.dedup :=
      List.mergeSort_perm m.dedup _
    refine ⟨?_, ?_, ?_, ?_⟩
    · intro v hv
      refine ⟨m.count (binOf W v), ?_⟩
      simp only [makeHistogram, ← hm]
      exact List.mem_map_of_mem _
        (hperm.mem_iff.mpr (List.mem_dedup.mpr (List.mem_map_of_mem _ hv)))
    · intro pr hpr
      simp only [makeHistogram, ← hm, List.mem_map] at hpr
      obtain ⟨k, hk, hpr⟩ := hpr
      subst hpr
      refine ⟨rfl, ?_⟩
      exact List.count_pos_iff.mpr (List.mem_dedup.mp (hperm.mem_iff.mp hk))
    · have hfst : (makeHistogram arr W).map Prod.fst
          = m.dedup.mergeSort (fun a b => decide (a ≤ b)) := by
        simp only [makeHistogram, ← hm, List.map_map]
        have h : (Prod.fst ∘ fun k => (k, List.count k m)) = id := rfl
        rw [h, List.map_id]
      rw [hfst]
      exact histogram_keys_sorted_lt m
    · have h1 : (makeHistogram arr W).map Prod.snd
          = (m.dedup.mergeSort (fun a b => decide (a ≤ b))).map (fun k => m.count k) := by
        simp only [makeHistogram, ← hm, List.map_map]
        rfl
      rw [h1, (hperm.map (fun k => m.count k)).sum_eq,
        List.sum_map_count_dedup_eq_length m, hm, List.length_map]
  · simp only [makeHistogram]
    have h2 : ([3, 3, 7, 12] : List ℚ).map (binOf 5) = [0, 0, 5, 10] := by
      norm_num [binOf]
    rw [h2]
    have h1 : ([0, 0, 5, 10] : List ℚ).dedup = [0, 5, 10] := by decide
    rw [h1, List.mergeSort_eq_self (by decide)]
    simp [List.count_cons]

/-- C9 (witness): the general part of `histogram_spec` applied to the
concrete batch `[3, 3, 7, 12]` with bin width `5`. -/
theorem histogram_spec_witness :
    ((makeHistogram [3, 3, 7, 12] 5).map Prod.snd).sum = ([3, 3, 7, 12] : List ℚ).length :=
  ((histogram_spec.1 [3, 3, 7, 12] 5 (by norm_num)).2.2).2

/-! ### Projection lemmas for the shared star step -/

theorem starStep_attempts (p : Params) (r : ℕ → ℚ) (s : SimState) :
    (starStep p r s).attempts = s.attempts + 1 := by
  simp only [starStep]; split_ifs <;> rfl

theorem starStep_gold_eq (p : Params) (r : ℕ → ℚ) (s : SimState) :
    (starStep p r s).gold = s.gold + p.goldPerAttempt := by
  simp only [starStep]; split_ifs <;> rfl

theorem starStep_finalPityFails (p : Params) (r : ℕ → ℚ) (s : SimState) :
    (starStep p r s).finalPityFails = s.finalPityFails := by
  simp only [starStep]; split_ifs <;> rfl

theorem starStep_starAttempts (p : Params) (r : ℕ → ℚ) (s : SimState) :
    (starStep p r s).starAttempts
      = s.starAttempts.set s.currentStars (s.starAttempts.getD s.currentStars 0 + 1) := by
  simp only [starStep]; split_ifs <;> rfl

theorem starStep_starAttempts_length (p : Params) (r : ℕ → ℚ) (s : SimState) :
    (starStep p r s).starAttempts.length = s.starAttempts.length := by
  rw [starStep_starAttempts]; exact List.length_set s.starAttempts _ _

theorem starStep_starAttempts_sum (p : Params) (r : ℕ → ℚ) (s : SimState)
    (hlen : s.starAttempts.length = p.numStars) (hc : s.currentStars < p.numStars) :
    (starStep p r s).starAttempts.sum = s.starAttempts.sum + 1 := by
  rw [starStep_starAttempts]
  exact sum_set_getD_succ _ _ (by rw [hlen]; exact hc)

/-! ### Gold bookkeeping (C5) -/

theorem starsOnlyLoop_gold (p : Params) (r : ℕ → ℚ) :
    ∀ (fuel : ℕ) (s t : SimState), starsOnlyLoop p r fuel s = some t →
    s.gold = (s.attempts : ℚ) * p.goldPerAttempt →
    t.gold = (t.attempts : ℚ) * p.goldPerAttempt := by
  intro fuel
  induction fuel with
  | zero => intro s t h; simp [starsOnlyLoop] at h
  | succ fuel ih =>
    intro s t h hg
    simp only [starsOnlyLoop] at h
    split_ifs at h with h1
    · refine ih _ _ h ?_
      rw [starStep_gold_eq, starStep_attempts, hg]
      push_cast
      ring
    · obtain rfl := Option.some.inj h
      exact hg

theorem fullRunLoop_gold (p : Params) (r : ℕ → ℚ) :
    ∀ (fuel : ℕ) (s t : SimState), fullRunLoop p r fuel s = some t →
    s.gold = (s.attempts : ℚ) * p.goldPerAttempt →
    t.gold = (t.attempts : ℚ) * p.goldPerAttempt := by
  intro fuel
  induction fuel with
  | zero => intro s t h; simp [fullRunLoop] at h
  | succ fuel ih =>
    intro s t h hg
    simp only [fullRunLoop] at h
    split_ifs at h with h1 h2 h3
    · refine ih _ _ h ?_
      rw [starStep_gold_eq, starStep_attempts, hg]
      push_cast
      ring
    · obtain rfl := Option.some.inj h
      simp only
      rw [hg]
      push_cast
      ring
    · obtain rfl := Option.some.inj h
      simp only
      rw [hg]
      push_cast
      ring
    · refine ih _ _ h ?_
      simp only
      rw [hg]
      push_cast
      ring

/-! ### Attempt counting (C10) -/

theorem starsOnlyLoop_count (p : Params) (r : ℕ → ℚ) :
    ∀ (fuel : ℕ) (s t : SimState), starsOnlyLoop p r fuel s = some t →
    s.starAttempts.length = p.numStars →
    t.attempts + s.starAttempts.sum = s.attempts + t.starAttempts.sum := by
  intro fuel
  induction fuel with
  | zero => intro s t h; simp [starsOnlyLoop] at h
  | succ fuel ih =>
    intro s t h hlen
    simp only [starsOnlyLoop] at h
    split_ifs at h with h1
    · have hrec := ih _ _ h (by rw [starStep_starAttempts_length]; exact hlen)
      rw [starStep_attempts, starStep_starAttempts_sum p r s hlen h1] at hrec
      omega
    · obtain rfl := Option.some.inj h
      omega

theorem fullRunLoop_count (p : Params) (r : ℕ → ℚ) :
    ∀ (fuel : ℕ) (s t : SimState), fullRunLoop p r fuel s = some t →
    s.starAttempts.length = p.numStars →
    t.attempts + s.starAttempts.sum + s.finalPityFails
      = s.attempts + t.starAttempts.sum + t.finalPityFails + 1 := by
  intro fuel
  induction fuel with
  | zero => intro s t h; simp [fullRunLoop] at h
  | succ fuel ih =>
    intro s t h hlen
    simp only [fullRunLoop] at h
    split_ifs at h with h1 h2 h3
    · have hrec := ih _ _ h (by rw [starStep_starAttempts_length]; exact hlen)
      rw [starStep_attempts, starStep_starAttempts_sum p r s hlen h1,
        starStep_finalPityFails] at hrec
      omega
    · obtain rfl := Option.some.inj h
      simp only
      omega
    · obtain rfl := Option.some.inj h
      simp only
      omega
    · have hrec := ih _ _ h hlen
      simp only at hrec
      omega

/-- C5: for every configuration and every random source, every outcome of
`simulateStarsOnly` and of `simulateFullRun`, and every finite outcome of
`worstCaseStarsOnly` and `worstCaseFull`, has
`gold = attempts * goldPerAttempt`.  The four parts are independent
implications, so each holds for every configuration on which that
particular operation terminates (or, for the worst-case calculators,
returns a finite result), regardless of the others. -/
theorem cost_eq_attempts_mul_gold :
    (∀ (p : Params) (r : ℕ → ℚ) (fuel n : ℕ) (s : SimState),
      simulateStarsOnly p r fuel n = some s →
      s.gold = (s.attempts : ℚ) * p.goldPerAttempt) ∧
    (∀ (p : Params) (r : ℕ → ℚ) (fuel n : ℕ) (s : SimState),
      simulateFullRun p r fuel n = some s →
      s.gold = (s.attempts : ℚ) * p.goldPerAttempt) ∧
    (∀ (p : Params) (fuel : ℕ) (a : ℕ) (g : ℚ),
      worstCaseStarsOnly p fuel = some (WCResult.finite a g) →
      g = (a : ℚ) * p.goldPerAttempt) ∧
    (∀ (p : Params) (fuel : ℕ) (a : ℕ) (g : ℚ),
      worstCaseFull p fuel = some (WCResult.finite a g) →
      g = (a : ℚ) * p.goldPerAttempt) := by
  refine ⟨?_, ?_, ?_, ?_⟩
  · intro p r fuel n s h
    exact starsOnlyLoop_gold p r fuel _ s h (by simp [initState])
  · intro p r fuel n s h
    exact fullRunLoop_gold p r fuel _ s h (by simp [initState])
  · intro p fuel a g h
    unfold worstCaseStarsOnly at h
    split_ifs at h
    · simp at h
    · obtain ⟨u, _, hu⟩ := Option.map_eq_some'.mp h
      injection hu with hA hG
      rw [← hG, hA]
  · intro p fuel a g h
    unfold worstCaseFull at h
    split_ifs at h
    · simp at h
    · obtain ⟨u, _, hu⟩ := Option.map_eq_some'.mp h
      injection hu with hA hG
      rw [← hG, hA]

/-- C5 (witness): the invariant evaluated on the concrete configuration
`cfgD` with the constant-zero random source. -/
theorem cost_eq_attempts_mul_gold_witness :
    ({ attempts := 1, gold := 7, starPityFails := [0], starAttempts := [1],
       finalPityFails := 0, currentStars := 1, idx := 0 } : SimState).gold
      = ((({ attempts := 1, gold := 7, starPityFails := [0], starAttempts := [1],
             finalPityFails := 0, currentStars := 1, idx := 0 } : SimState).attempts : ℕ) : ℚ)
          * cfgD.goldPerAttempt ∧
    ({ attempts := 2, gold := 14, starPityFails := [0], starAttempts := [1],
       finalPityFails := 0, currentStars := 1, idx := 0 } : SimState).gold
      = ((({ attempts := 2, gold := 14, starPityFails := [0], starAttempts := [1],
             finalPityFails := 0, currentStars := 1, idx := 0 } : SimState).attempts : ℕ) : ℚ)
          * cfgD.goldPerAttempt ∧
    (7 : ℚ) = ((1 : ℕ) : ℚ) * cfgD.goldPerAttempt ∧
    (14 : ℚ) = ((2 : ℕ) : ℚ) * cfgD.goldPerAttempt :=
  ⟨cost_eq_attempts_mul_gold.1 cfgD (fun _ => 0) 2 0
    { attempts := 1, gold := 7, starPityFails := [0], starAttempts := [1],
      finalPityFails := 0, currentStars := 1, idx := 0 }
    (by norm_num [simulateStarsOnly, starsOnlyLoop, starStep, initState, cfgD,
      applyFailReset, List.replicate, List.set]),
   cost_eq_attempts_mul_gold.2.1 cfgD (fun _ => 0) 3 0
    { attempts := 2, gold := 14, starPityFails := [0], starAttempts := [1],
      finalPityFails := 0, currentStars := 1, idx := 0 }
    (by norm_num [simulateFullRun, fullRunLoop, starStep, initState, cfgD,
      applyFailReset, List.replicate, List.set]),
   cost_eq_attempts_mul_gold.2.2.1 cfgD 2 1 7
    (by norm_num [worstCaseStarsOnly, wcStarsLoop, wcStarStep, wcInit, cfgD,
      List.replicate, List.set]),
   cost_eq_attempts_mul_gold.2.2.2 cfgD 3 2 14
    (by norm_num [worstCaseFull, wcFullLoop, wcStarStep, wcInit, cfgD,
      List.replicate, List.set])⟩

/-- C10: every terminating `simulateStarsOnly` run has its per-star attempt
counts summing exactly to `attempts`; every terminating `simulateFullRun`
run has `attempts` exceeding that sum by exactly the number of final
attempts made — one per final-pity failure plus the final success — which
is at least `1`.  The two parts are independent implications, so the
stars-only decomposition holds whenever that run terminates, whether or
not a full run from the same configuration would. -/
theorem attempts_decomposition :
    (∀ (p : Params) (r : ℕ → ℚ) (fuel n : ℕ) (s : SimState),
      simulateStarsOnly p r fuel n = some s →
      s.attempts = s.starAttempts.sum) ∧
    (∀ (p : Params) (r : ℕ → ℚ) (fuel n : ℕ) (s : SimState),
      simulateFullRun p r fuel n = some s →
      s.attempts = s.starAttempts.sum + (s.finalPityFails + 1) ∧
      1 ≤ s.finalPityFails + 1) := by
  constructor
  · intro p r fuel n s h
    have hc := starsOnlyLoop_count p r fuel _ s h (by simp [initState])
    simp only [initState, List.sum_replicate, smul_eq_mul, Nat.mul_zero] at hc
    omega
  · intro p r fuel n s h
    have hc := fullRunLoop_count p r fuel _ s h (by simp [initState])
    simp only [initState, List.sum_replicate, smul_eq_mul, Nat.mul_zero] at hc
    omega

/-- C10 (witness): the decomposition evaluated on the concrete
configuration `cfgD` with the constant-zero random source. -/
theorem attempts_decomposition_witness :
    (1 : ℕ) = [1].sum ∧ ((2 : ℕ) = [1].sum + (0 + 1) ∧ (1 : ℕ) ≤ 0 + 1) :=
  ⟨attempts_decomposition.1 cfgD (fun _ => 0) 2 0
    { attempts := 1, gold := 7, starPityFails := [0], starAttempts := [1],
      finalPityFails := 0, currentStars := 1, idx := 0 }
    (by norm_num [simulateStarsOnly, starsOnlyLoop, starStep, initState, cfgD,
      applyFailReset, List.replicate, List.set]),
   attempts_decomposition.2 cfgD (fun _ => 0) 3 0
    { attempts := 2, gold := 14, starPityFails := [0], starAttempts := [1],
      finalPityFails := 0, currentStars := 1, idx := 0 }
    (by norm_num [simulateFullRun, fullRunLoop, starStep, initState, cfgD,
      applyFailReset, List.replicate, List.set])⟩

/-! ### Non-termination of the stochastic loops on `cfgC` (C3) -/

theorem starStep_cfgC_state (r : ℕ → ℚ) (hr : ∀ n, 0 ≤ r n) (s : SimState)
    (hc : s.currentStars = 0) (hp : s.starPityFails = [0]) :
    (starStep cfgC r s).currentStars = 0 ∧ (starStep cfgC r s).starPityFails = [0] := by
  simp only [starStep, hc, hp]
  rw [if_neg (by norm_num [cfgC]),
    if_neg (by norm_num [cfgC]; exact hr s.idx)]
  refine ⟨rfl, ?_⟩
  norm_num [applyFailReset, cfgC, List.set, List.replicate]

theorem starsOnlyLoop_cfgC_diverges (r : ℕ → ℚ) (hr : ∀ n, 0 ≤ r n) :
    ∀ (fuel : ℕ) (s : SimState), s.currentStars = 0 → s.starPityFails = [0] →
    starsOnlyLoop cfgC r fuel s = none := by
  intro fuel
  induction fuel with
  | zero => intro s _ _; rfl
  | succ fuel ih =>
    intro s hc hp
    simp only [starsOnlyLoop]
    rw [if_pos (by rw [hc]; norm_num [cfgC])]
    obtain ⟨h1, h2⟩ := starStep_cfgC_state r hr s hc hp
    exact ih _ h1 h2

theorem fullRunLoop_cfgC_diverges (r : ℕ → ℚ) (hr : ∀ n, 0 ≤ r n) :
    ∀ (fuel : ℕ) (s : SimState), s.currentStars = 0 → s.starPityFails = [0] →
    fullRunLoop cfgC r fuel s = none := by
  intro fuel
  induction fuel with
  | zero => intro s _ _; rfl
  | succ fuel ih =>
    intro s hc hp
    simp only [fullRunLoop]
    rw [if_pos (by rw [hc]; norm_num [cfgC])]
    obtain ⟨h1, h2⟩ := starStep_cfgC_state r hr s hc hp
    exact ih _ h1 h2

/-- C3: the engine has no fail-fast guard for the non-terminating
configuration "reset-on-any-failure enabled and all probabilities `0`"
(`cfgC`): instead of raising an error or returning an unbounded result
before the Monte Carlo pass, both stochastic simulators loop forever —
for every amount of fuel they fail to terminate (here run on the
generator seeded with `42`, the spec's diagnostic seed). -/
theorem no_fail_fast_guard :
    (∀ fuel, simulateStarsOnly cfgC (lcgStream 42) fuel 0 = none) ∧
    (∀ fuel, simulateFullRun cfgC (lcgStream 42) fuel 0 = none) := by
  constructor <;> intro fuel
  · exact starsOnlyLoop_cfgC_diverges _ (fun n => lcgValue_nonneg 42 n) fuel _ rfl rfl
  · exact fullRunLoop_cfgC_diverges _ (fun n => lcgValue_nonneg 42 n) fuel _ rfl rfl

/-! ### Zero-probability runs follow the worst-case machine (C1) -/

theorem getD_eq_zero_of_all_zero (l : List ℚ) (h : ∀ x ∈ l, x = 0) (i : ℕ) :
    l.getD i 0 = 0 := by
  by_cases hi : i < l.length
  · rw [List.getD_eq_getElem _ _ hi]
    exact h _ (l.getElem_mem hi)
  · exact List.getD_eq_default _ _ (Nat.le_of_not_lt hi)

theorem simToWC_currentStars (s : SimState) : (simToWC s).currentStars = s.currentStars := rfl

theorem simToWC_finalPityFails (s : SimState) :
    (simToWC s).finalPityFails = s.finalPityFails := rfl

theorem simToWC_starStep (p : Params) (r : ℕ → ℚ) (s : SimState)
    (hreset : p.starPityResetsOnAnyFail = false)
    (hps : ∀ x ∈ p.starProbs, x = 0) (hr : 0 ≤ r s.idx) :
    simToWC (starStep p r s) = wcStarStep p (simToWC s) := by
  simp only [starStep, wcStarStep, simToWC]
  by_cases hg : p.starPityThreshold ≤ s.starPityFails.getD s.currentStars 0
  · rw [if_pos hg, if_pos hg]
  · rw [if_neg hg, if_neg hg,
      if_neg (by rw [getD_eq_zero_of_all_zero p.starProbs hps]; exact not_lt.mpr hr),
      applyFailReset, hreset]
    simp

theorem fullRunLoop_eq_wcFullLoop (p : Params)
    (hreset : p.starPityResetsOnAnyFail = false)
    (hps : ∀ x ∈ p.starProbs, x = 0) (hf : p.finalProb = 0)
    (r : ℕ → ℚ) (hr : ∀ n, 0 ≤ r n) :
    ∀ (fuel : ℕ) (s : SimState),
    (fullRunLoop p r fuel s).map SimState.attempts = wcFullLoop p fuel (simToWC s) := by
  intro fuel
  induction fuel with
  | zero => intro s; rfl
  | succ fuel ih =>
    intro s
    simp only [fullRunLoop, wcFullLoop, simToWC_currentStars, simToWC_finalPityFails]
    by_cases h1 : s.currentStars < p.numStars
    · rw [if_pos h1, if_pos h1,
        ← simToWC_starStep p r s hreset hps (hr s.idx)]
      exact ih (starStep p r s)
    · rw [if_neg h1, if_neg h1]
      by_cases h2 : p.finalPityThreshold ≤ s.finalPityFails
      · rw [if_pos h2, if_pos h2]
        simp [simToWC]
      · rw [if_neg h2, if_neg h2, if_neg (by rw [hf]; exact not_lt.mpr (hr s.idx)), ih _]
        congr 1
        simp [simToWC, applyFailReset, hreset]

/-- C1: on Scenario B's configuration (`cfgB`: two stars, all probabilities
`0`, pity thresholds `2`, no reset-on-fail) the stochastic full run takes
exactly the worst-case number of attempts: `worstCaseFull` reports `39`
attempts (cost `3900`), and `simulateFullRun` reports `39` attempts for
every random source with non-negative draws — in particular for the
generator built from any integer seed — since with probability `0` only
pity ever triggers success. -/
theorem fullRun_zero_prob_eq_worst_case :
    worstCaseFull cfgB 39 = some (WCResult.finite 39 3900) ∧
    (∀ r : ℕ → ℚ, (∀ n, 0 ≤ r n) →
      (simulateFullRun cfgB r 39 0).map SimState.attempts = some 39) ∧
    (∀ seed : ℤ,
      (simulateFullRun cfgB (lcgStream seed) 39 0).map SimState.attempts = some 39) := by
  have hwc : wcFullLoop cfgB 39 (wcInit cfgB) = some 39 := by decide
  have hmain : ∀ r : ℕ → ℚ, (∀ n, 0 ≤ r n) →
      (simulateFullRun cfgB r 39 0).map SimState.attempts = some 39 := by
    intro r hr
    rw [simulateFullRun,
      fullRunLoop_eq_wcFullLoop cfgB rfl (by decide) rfl r hr 39 (initState cfgB 0)]
    have h0 : simToWC (initState cfgB 0) = wcInit cfgB := rfl
    rw [h0, hwc]
  refine ⟨?_, hmain, fun seed => hmain _ (fun n => lcgValue_nonneg seed n)⟩
  rw [worstCaseFull, if_neg (by simp [cfgB]), hwc]
  norm_num [cfgB]

/-- C1 (witness): the equality applied to the constant-zero random
source. -/
theorem fullRun_zero_prob_eq_worst_case_witness :
    (simulateFullRun cfgB (fun _ => 0) 39 0).map SimState.attempts = some 39 :=
  fullRun_zero_prob_eq_worst_case.2.1 (fun _ => 0) (fun _ => le_refl 0)

/-- C6 (amended): Scenario A (`cfgA`: three stars, all probabilities `1`,
`finalProb = 1`) — for every random source whose draws are all strictly
below `1`, `simulateStarsOnly` yields `totalAttempts = 3` with
`attemptsPerStage = [1, 1, 1]` and stream position `3`, and
`simulateFullRun`, continuing the same stream at position `3`, yields
`totalAttempts = 4` with `attemptsPerStage = [1, 1, 1]`.  The restriction
on the draws is necessary: the generator can return exactly `1` (see the
counterexample), and a draw of exactly `1` fails against probability `1`. -/
theorem scenario_a_all_prob_one (r : ℕ → ℚ) (h : ∀ n, r n < 1) :
    simulateStarsOnly cfgA r 4 0 = some
      { attempts := 3, gold := 300, starPityFails := [0, 0, 0], starAttempts := [1, 1, 1],
        finalPityFails := 0, currentStars := 3, idx := 3 } ∧
    simulateFullRun cfgA r 5 3 = some
      { attempts := 4, gold := 400, starPityFails := [0, 0, 0], starAttempts := [1, 1, 1],
        finalPityFails := 0, currentStars := 3, idx := 7 } := by
  constructor
  · norm_num [simulateStarsOnly, starsOnlyLoop, starStep, initState, cfgA, applyFailReset,
      List.replicate, List.set, h 0, h 1, h 2]
  · norm_num [simulateFullRun, fullRunLoop, starStep, initState, cfgA, applyFailReset,
      List.replicate, List.set, h 3, h 4, h 5, h 6]

/-- C6 (witness): Scenario A applied to the constant-zero random source. -/
theorem scenario_a_all_prob_one_witness :
    simulateStarsOnly cfgA (fun _ => 0) 4 0 = some
      { attempts := 3, gold := 300, starPityFails := [0, 0, 0], starAttempts := [1, 1, 1],
        finalPityFails := 0, currentStars := 3, idx := 3 } :=
  (scenario_a_all_prob_one (fun _ => 0) (fun _ => by norm_num)).1

/-- C6 (counterexample): the claim "for every seed" is false.  For the
generator built from seed `653637408` the first draw is exactly `1`
(the LCG state reaches `2^32 - 1`), that draw fails against probability
`1`, and `simulateStarsOnly` on Scenario A's configuration takes `4`
attempts instead of the claimed `3`. -/
theorem scenario_a_seed_counterexample :
    (simulateStarsOnly cfgA (lcgStream 653637408) 10 0).map SimState.attempts = some 4 ∧
    (4 : ℕ) ≠ 3 := by
  have e1 : lcgState 653637408 1 = 4294967295 := by decide
  have e2 : lcgState 653637408 2 = 1012239698 := by decide
  have e3 : lcgState 653637408 3 = 806866057 := by decide
  have e4 : lcgState 653637408 4 = 579071060 := by decide
  have d0 : lcgStream 653637408 0 = 1 := by
    rw [lcgStream, lcgValue, e1]; norm_num
  have d1 : lcgStream 653637408 1 = 1012239698 / 4294967295 := by
    rw [lcgStream, lcgValue, e2]; norm_num
  have d2 : lcgStream 653637408 2 = 806866057 / 4294967295 := by
    rw [lcgStream, lcgValue, e3]; norm_num
  have d3 : lcgStream 653637408 3 = 579071060 / 4294967295 := by
    rw [lcgStream, lcgValue, e4]; norm_num
  constructor
  · norm_num [simulateStarsOnly, starsOnlyLoop, starStep, initState, cfgA, applyFailReset,
      List.replicate, List.set, d0, d1, d2, d3]
  · decide

/-! ### Closed form of the worst-case calculators (C2, C7) -/

theorem sum_starFinish_zero (T : ℕ) : ∀ c : ℕ,
    ∑ k ∈ Finset.range c, starFinishCost T k 0 = pityBuildCost T c := by
  intro c
  induction c with
  | zero => simp [pityBuildCost]
  | succ c ih =>
    rw [Finset.sum_range_succ, ih, starFinishCost, Nat.sub_zero]
    simp only [pityBuildCost]
    ring

theorem remStars_all_zero (T N : ℕ) (pity : List ℕ)
    (h : ∀ k < N, pity.getD k 0 = 0) :
    remStars T N pity 0 = pityBuildCost T N := by
  rw [remStars, ← Finset.range_eq_Ico, ← sum_starFinish_zero T N]
  refine Finset.sum_congr rfl ?_
  intro k hk
  rw [h k (Finset.mem_range.mp hk)]

theorem wcStarStep_invariant (p : Params) (s : WCState)
    (hc : s.currentStars < p.numStars)
    (hlen : s.starPityFails.length = p.numStars)
    (hclean : ∀ k < s.currentStars, s.starPityFails.getD k 0 = 0) :
    (wcStarStep p s).attempts = s.attempts + 1 ∧
    (wcStarStep p s).currentStars ≤ p.numStars ∧
    (wcStarStep p s).starPityFails.length = p.numStars ∧
    (∀ k < (wcStarStep p s).currentStars, (wcStarStep p s).starPityFails.getD k 0 = 0) ∧
    remStars p.starPityThreshold p.numStars (wcStarStep p s).starPityFails
        (wcStarStep p s).currentStars + 1
      = remStars p.starPityThreshold p.numStars s.starPityFails s.currentStars ∧
    (wcStarStep p s).finalPityFails = s.finalPityFails := by
  have hclt : s.currentStars < s.starPityFails.length := by rw [hlen]; exact hc
  simp only [wcStarStep]
  by_cases hg : p.starPityThreshold ≤ s.starPityFails.getD s.currentStars 0
  · rw [if_pos hg]
    refine ⟨rfl, hc, ?_, ?_, ?_, rfl⟩
    · rw [List.length_set]; exact hlen
    · intro k hk
      rcases Nat.lt_succ_iff_lt_or_eq.mp hk with hk1 | hk1
      · rw [getD_set_other _ _ _ (by omega)]
        exact hclean k hk1
      · subst hk1
        exact getD_set_self _ _ _ _ hclt
    · rw [remStars, remStars, Finset.sum_eq_sum_Ico_succ_bot hc]
      have htail : ∑ k ∈ Finset.Ico (s.currentStars + 1) p.numStars,
            starFinishCost p.starPityThreshold k ((s.starPityFails.set s.currentStars 0).getD k 0)
          = ∑ k ∈ Finset.Ico (s.currentStars + 1) p.numStars,
            starFinishCost p.starPityThreshold k (s.starPityFails.getD k 0) := by
        refine Finset.sum_congr rfl ?_
        intro k hk
        rw [getD_set_other _ _ _ (by have := Finset.mem_Ico.mp hk; omega)]
      rw [htail, starFinishCost, Nat.sub_eq_zero_of_le hg]
      ring
  · rw [if_neg hg]
    have hv : s.starPityFails.getD s.currentStars 0 < p.starPityThreshold := Nat.lt_of_not_le hg
    refine ⟨rfl, Nat.zero_le _, ?_, ?_, ?_, rfl⟩
    · rw [List.length_set]; exact hlen
    · intro k hk; simp at hk
    · rw [remStars, remStars, Finset.sum_eq_sum_Ico_succ_bot hc,
        ← Finset.sum_Ico_consecutive _ (Nat.zero_le s.currentStars) (Nat.le_of_lt hc),
        Finset.sum_eq_sum_Ico_succ_bot hc]
      have hhead : ∑ k ∈ Finset.Ico 0 s.currentStars,
            starFinishCost p.starPityThreshold k
              ((s.starPityFails.set s.currentStars (s.starPityFails.getD s.currentStars 0 + 1)).getD k 0)
          = pityBuildCost p.starPityThreshold s.currentStars := by
        rw [← Finset.range_eq_Ico, ← sum_starFinish_zero p.starPityThreshold s.currentStars]
        refine Finset.sum_congr rfl ?_
        intro k hk
        rw [getD_set_other _ _ _ (by have := Finset.mem_range.mp hk; omega),
          hclean k (Finset.mem_range.mp hk)]
      have htail : ∑ k ∈ Finset.Ico (s.currentStars + 1) p.numStars,
            starFinishCost p.starPityThreshold k
              ((s.starPityFails.set s.currentStars (s.starPityFails.getD s.currentStars 0 + 1)).getD k 0)
          = ∑ k ∈ Finset.Ico (s.currentStars + 1) p.numStars,
            starFinishCost p.starPityThreshold k (s.starPityFails.getD k 0) := by
        refine Finset.sum_congr rfl ?_
        intro k hk
        rw [getD_set_other _ _ _ (by have := Finset.mem_Ico.mp hk; omega)]
      rw [hhead, htail, getD_set_self _ _ _ _ hclt]
      obtain ⟨u, hu⟩ : ∃ u, p.starPityThreshold - s.starPityFails.getD s.currentStars 0 = u + 1 :=
        ⟨p.starPityThreshold - s.starPityFails.getD s.currentStars 0 - 1, by omega⟩
      have hu2 : p.starPityThreshold - (s.starPityFails.getD s.currentStars 0 + 1) = u := by omega
      rw [starFinishCost, starFinishCost, hu, hu2]
      ring

theorem wcStarsLoop_formula (p : Params) :
    ∀ (fuel : ℕ) (s : WCState),
    s.currentStars ≤ p.numStars →
    s.starPityFails.length = p.numStars →
    (∀ k < s.currentStars, s.starPityFails.getD k 0 = 0) →
    remStars p.starPityThreshold p.numStars s.starPityFails s.currentStars + 1 ≤ fuel →
    ∃ t, wcStarsLoop p fuel s = some t ∧
      t.attempts = s.attempts
        + remStars p.starPityThreshold p.numStars s.starPityFails s.currentStars := by
  intro fuel
  induction fuel with
  | zero => intro s _ _ _ hfuel; omega
  | succ fuel ih =>
    intro s hc hlen hclean hfuel
    simp only [wcStarsLoop]
    by_cases h1 : s.currentStars < p.numStars
    · rw [if_pos h1]
      obtain ⟨hA, hC, hL, hCl, hR, _⟩ := wcStarStep_invariant p s h1 hlen hclean
      obtain ⟨t, ht, hta⟩ := ih (wcStarStep p s) hC hL hCl (by omega)
      exact ⟨t, ht, by rw [hta, hA]; omega⟩
    · rw [if_neg h1]
      have hcN : s.currentStars = p.numStars := Nat.le_antisymm hc (Nat.le_of_not_lt h1)
      have hz : remStars p.starPityThreshold p.numStars s.starPityFails s.currentStars = 0 := by
        rw [remStars, hcN, Finset.Ico_self, Finset.sum_empty]
      exact ⟨s, rfl, by omega⟩

theorem wcFullLoop_formula (p : Params) :
    ∀ (fuel : ℕ) (s : WCState),
    s.currentStars ≤ p.numStars →
    s.starPityFails.length = p.numStars →
    (∀ k < s.currentStars, s.starPityFails.getD k 0 = 0) →
    s.finalPityFails ≤ p.finalPityThreshold →
    remFull p.starPityThreshold p.finalPityThreshold p.numStars s.starPityFails
        s.currentStars s.finalPityFails ≤ fuel →
    wcFullLoop p fuel s = some (s.attempts
      + remFull p.starPityThreshold p.finalPityThreshold p.numStars s.starPityFails
          s.currentStars s.finalPityFails) := by
  intro fuel
  induction fuel with
  | zero =>
    intro s _ _ _ _ hfuel
    rw [remFull] at hfuel
    omega
  | succ fuel ih =>
    intro s hc hlen hclean hfp hfuel
    simp only [wcFullLoop]
    by_cases h1 : s.currentStars < p.numStars
    · rw [if_pos h1]
      obtain ⟨hA, hC, hL, hCl, hR, hF⟩ := wcStarStep_invariant p s h1 hlen hclean
      have hrem : remFull p.starPityThreshold p.finalPityThreshold p.numStars
            (wcStarStep p s).starPityFails (wcStarStep p s).currentStars
            (wcStarStep p s).finalPityFails + 1
          = remFull p.starPityThreshold p.finalPityThreshold p.numStars
              s.starPityFails s.currentStars s.finalPityFails := by
        rw [remFull, remFull, hF]
        omega
      rw [ih (wcStarStep p s) hC hL hCl (by rw [hF]; exact hfp) (by omega)]
      refine congrArg some ?_
      omega
    · rw [if_neg h1]
      have hcN : s.currentStars = p.numStars := Nat.le_antisymm hc (Nat.le_of_not_lt h1)
      have hz : remStars p.starPityThreshold p.numStars s.starPityFails s.currentStars = 0 := by
        rw [remStars, hcN, Finset.Ico_self, Finset.sum_empty]
      by_cases h2 : p.finalPityThreshold ≤ s.finalPityFails
      · rw [if_pos h2]
        refine congrArg some ?_
        rw [remFull, hz, Nat.sub_eq_zero_of_le h2]
        ring
      · rw [if_neg h2]
        have hv : s.finalPityFails < p.finalPityThreshold := Nat.lt_of_not_le h2
        have hallzero : ∀ k < p.numStars, s.starPityFails.getD k 0 = 0 := by
          intro k hk
          exact hclean k (by omega)
        have hB : remStars p.starPityThreshold p.numStars s.starPityFails 0
            = pityBuildCost p.starPityThreshold p.numStars :=
          remStars_all_zero _ _ _ hallzero
        obtain ⟨u, hu⟩ : ∃ u, p.finalPityThreshold - s.finalPityFails = u + 1 :=
          ⟨p.finalPityThreshold - s.finalPityFails - 1, by omega⟩
        have hu2 : p.finalPityThreshold - (s.finalPityFails + 1) = u := by omega
        have hrem : remFull p.starPityThreshold p.finalPityThreshold p.numStars
              s.starPityFails 0 (s.finalPityFails + 1) + 1
            = remFull p.starPityThreshold p.finalPityThreshold p.numStars
                s.starPityFails s.currentStars s.finalPityFails := by
          rw [remFull, remFull, hz, hB, hu, hu2]
          ring
        rw [ih { s with attempts := s.attempts + 1, finalPityFails := s.finalPityFails + 1,
                        currentStars := 0 }
            (Nat.zero_le _) hlen (by intro k hk; simp at hk) (by simpa using hv) (by
              simp only
              omega)]
        refine congrArg some ?_
        simp only
        omega

theorem wcInit_facts (p : Params) :
    (wcInit p).currentStars ≤ p.numStars ∧
    (wcInit p).starPityFails.length = p.numStars ∧
    (∀ k < (wcInit p).currentStars, (wcInit p).starPityFails.getD k 0 = 0) ∧
    (wcInit p).finalPityFails ≤ p.finalPityThreshold ∧
    remStars p.starPityThreshold p.numStars (wcInit p).starPityFails (wcInit p).currentStars
      = pityBuildCost p.starPityThreshold p.numStars := by
  refine ⟨Nat.zero_le _, by simp [wcInit], by intro k hk; simp [wcInit] at hk,
    Nat.zero_le _, ?_⟩
  exact remStars_all_zero _ _ _ (fun k _ => getD_replicate_zero _ _)

theorem worstCaseStarsOnly_closed_form (p : Params)
    (h : p.starPityResetsOnAnyFail = false) :
    worstCaseStarsOnly p (pityBuildCost p.starPityThreshold p.numStars + 1)
      = some (WCResult.finite (pityBuildCost p.starPityThreshold p.numStars)
          ((pityBuildCost p.starPityThreshold p.numStars : ℚ) * p.goldPerAttempt)) := by
  obtain ⟨h1, h2, h3, _, h5⟩ := wcInit_facts p
  obtain ⟨t, ht, hta⟩ := wcStarsLoop_formula p
    (pityBuildCost p.starPityThreshold p.numStars + 1) (wcInit p) h1 h2 h3 (by rw [h5])
  rw [worstCaseStarsOnly, if_neg (by simp [h]), ht]
  have : t.attempts = pityBuildCost p.starPityThreshold p.numStars := by
    rw [hta, h5]
    have h0 : (wcInit p).attempts = 0 := rfl
    rw [h0, Nat.zero_add]
  simp [this]

theorem worstCaseFull_closed_form (p : Params)
    (h : p.starPityResetsOnAnyFail = false) :
    worstCaseFull p
        ((p.finalPityThreshold + 1) * (pityBuildCost p.starPityThreshold p.numStars + 1))
      = some (WCResult.finite
          ((p.finalPityThreshold + 1) * (pityBuildCost p.starPityThreshold p.numStars + 1))
          ((((p.finalPityThreshold + 1)
              * (pityBuildCost p.starPityThreshold p.numStars + 1) : ℕ) : ℚ)
            * p.goldPerAttempt)) := by
  obtain ⟨h1, h2, h3, h4, h5⟩ := wcInit_facts p
  have hrem : remFull p.starPityThreshold p.finalPityThreshold p.numStars
      (wcInit p).starPityFails (wcInit p).currentStars (wcInit p).finalPityFails
      = (p.finalPityThreshold + 1) * (pityBuildCost p.starPityThreshold p.numStars + 1) := by
    rw [remFull, h5]
    have : (wcInit p).finalPityFails = 0 := rfl
    rw [this, Nat.sub_zero]
    ring
  have hloop := wcFullLoop_formula p
    ((p.finalPityThreshold + 1) * (pityBuildCost p.starPityThreshold p.numStars + 1))
    (wcInit p) h1 h2 h3 h4 (by rw [hrem])
  rw [worstCaseFull, if_neg (by simp [h]), hloop, hrem]
  have : (wcInit p).attempts = 0 := rfl
  rw [this, Nat.zero_add]
  rfl

/-- C2: the worst-case calculators report unbounded attempts and cost
exactly when `resetAllStagePityOnAnyFailure` is set: for every
configuration and fuel the result is the `unbounded` sentinel iff the flag
is `true`, and whenever the flag is `false` (with at least one stage) both
calculators terminate with finite attempts and cost. -/
theorem worst_case_unbounded_iff (p : Params) (fuel : ℕ) (hst : 1 ≤ p.numStars) :
    ((worstCaseStarsOnly p fuel = some WCResult.unbounded
        ↔ p.starPityResetsOnAnyFail = true) ∧
     (worstCaseFull p fuel = some WCResult.unbounded
        ↔ p.starPityResetsOnAnyFail = true)) ∧
    (p.starPityResetsOnAnyFail = false →
      ∃ f1 f2 a1 a2 g1 g2, worstCaseStarsOnly p f1 = some (WCResult.finite a1 g1) ∧
        worstCaseFull p f2 = some (WCResult.finite a2 g2)) := by
  refine ⟨⟨?_, ?_⟩, ?_⟩
  · cases hb : p.starPityResetsOnAnyFail
    · simp [worstCaseStarsOnly, hb, Option.map_eq_some']
    · simp [worstCaseStarsOnly, hb]
  · cases hb : p.starPityResetsOnAnyFail
    · simp [worstCaseFull, hb, Option.map_eq_some']
    · simp [worstCaseFull, hb]
  · intro h
    exact ⟨_, _, _, _, _, _, worstCaseStarsOnly_closed_form p h,
      worstCaseFull_closed_form p h⟩

/-- C2 (witness): the characterization applied to Scenario B's
configuration `cfgB`. -/
theorem worst_case_unbounded_iff_witness :
    ((worstCaseStarsOnly cfgB 5 = some WCResult.unbounded
        ↔ cfgB.starPityResetsOnAnyFail = true) ∧
     (worstCaseFull cfgB 5 = some WCResult.unbounded
        ↔ cfgB.starPityResetsOnAnyFail = true)) ∧
    (cfgB.starPityResetsOnAnyFail = false →
      ∃ f1 f2 a1 a2 g1 g2, worstCaseStarsOnly cfgB f1 = some (WCResult.finite a1 g1) ∧
        worstCaseFull cfgB f2 = some (WCResult.finite a2 g2)) :=
  worst_case_unbounded_iff cfgB 5 (by decide)

/-- C7: when `resetAllStagePityOnAnyFailure` is false, `worstCaseFull`
repeats the stage worst case with stage pity clean at the start of each
repetition while only final pity persists, so its attempts equal
`(finalPityThreshold + 1) * (worstCaseStarsOnly attempts + 1)` for every
such configuration. -/
theorem worst_case_full_ratio (p : Params) (h : p.starPityResetsOnAnyFail = false) :
    ∃ f1 f2 a g1 g2, worstCaseStarsOnly p f1 = some (WCResult.finite a g1) ∧
      worstCaseFull p f2
        = some (WCResult.finite ((p.finalPityThreshold + 1) * (a + 1)) g2) :=
  ⟨_, _, _, _, _, worstCaseStarsOnly_closed_form p h, worstCaseFull_closed_form p h⟩

/-- C7 (witness): the ratio applied to Scenario B's configuration `cfgB`
(stars-only worst case `12`, full worst case `3 * 13 = 39`). -/
theorem worst_case_full_ratio_witness :
    ∃ f1 f2 a g1 g2, worstCaseStarsOnly cfgB f1 = some (WCResult.finite a g1) ∧
      worstCaseFull cfgB f2
        = some (WCResult.finite ((cfgB.finalPityThreshold + 1) * (a + 1)) g2) :=
  worst_case_full_ratio cfgB rfl

/-! ### Percentile monotonicity (C8) -/

theorem getD_mono_of_sorted (l : List ℚ) (hs : l.Sorted (· ≤ ·)) {i j : ℕ}
    (hij : i ≤ j) (hj : j < l.length) : l.getD i 0 ≤ l.getD j 0 := by
  have hi : i < l.length := lt_of_le_of_lt hij hj
  rw [List.getD_eq_getElem _ _ hi, List.getD_eq_getElem _ _ hj]
  rcases eq_or_lt_of_le hij with rfl | hlt
  · exact le_refl _
  · simpa using hs.rel_get_of_lt (show (⟨i, hi⟩ : Fin l.length) < ⟨j, hj⟩ from hlt)

theorem interpAt_mono (l : List ℚ) (hs : l.Sorted (· ≤ ·)) (x y : ℚ)
    (hx : 0 ≤ x) (hxy : x ≤ y) (hy : y ≤ (l.length : ℚ) - 1) :
    interpAt l x ≤ interpAt l y := by
  have hy0 : 0 ≤ y := le_trans hx hxy
  have hb12 : Nat.floor x ≤ Nat.floor y := Nat.floor_le_floor hxy
  have hb2lt : Nat.floor y < l.length := by
    have hfl : (Nat.floor y : ℚ) ≤ y := Nat.floor_le hy0
    have : (Nat.floor y : ℚ) < (l.length : ℚ) := by linarith
    exact_mod_cast this
  have hr1_0 : 0 ≤ x - (Nat.floor x : ℚ) := sub_nonneg.mpr (Nat.floor_le hx)
  have hr1_1 : x - (Nat.floor x : ℚ) ≤ 1 := by
    have := Nat.lt_floor_add_one x
    linarith
  have hr2_0 : 0 ≤ y - (Nat.floor y : ℚ) := sub_nonneg.mpr (Nat.floor_le hy0)
  simp only [interpAt]
  rcases eq_or_lt_of_le hb12 with heq | hlt
  · rw [← heq]
    by_cases hcase : Nat.floor x + 1 < l.length
    · rw [if_pos hcase, if_pos hcase]
      have hd : 0 ≤ l.getD (Nat.floor x + 1) 0 - l.getD (Nat.floor x) 0 :=
        sub_nonneg.mpr (getD_mono_of_sorted l hs (Nat.le_succ _) hcase)
      have hrr : x - (Nat.floor x : ℚ) ≤ y - (Nat.floor x : ℚ) := by linarith
      have hmul := mul_le_mul_of_nonneg_right hrr hd
      have hcast : ((Nat.floor x : ℕ) : ℚ) = ((Nat.floor y : ℕ) : ℚ) := by rw [heq]
      rw [← heq] at *
      linarith
    · rw [if_neg hcase, if_neg hcase]
  · have hb1succ : Nat.floor x + 1 < l.length := by omega
    have step1 : interpAt l x ≤ l.getD (Nat.floor x + 1) 0 := by
      simp only [interpAt]
      rw [if_pos hb1succ]
      have hAB : l.getD (Nat.floor x) 0 ≤ l.getD (Nat.floor x + 1) 0 :=
        getD_mono_of_sorted l hs (Nat.le_succ _) hb1succ
      have hmul := mul_le_mul_of_nonneg_right hr1_1 (sub_nonneg.mpr hAB)
      linarith
    have step2 : l.getD (Nat.floor x + 1) 0 ≤ l.getD (Nat.floor y) 0 :=
      getD_mono_of_sorted l hs (by omega) hb2lt
    have step3 : l.getD (Nat.floor y) 0 ≤ interpAt l y := by
      simp only [interpAt]
      by_cases hcase2 : Nat.floor y + 1 < l.length
      · rw [if_pos hcase2]
        have hd2 : 0 ≤ l.getD (Nat.floor y + 1) 0 - l.getD (Nat.floor y) 0 :=
          sub_nonneg.mpr (getD_mono_of_sorted l hs (Nat.le_succ _) hcase2)
        have := mul_nonneg hr2_0 hd2
        linarith
      · rw [if_neg hcase2]
    have := le_trans step1 (le_trans step2 step3)
    simpa only [interpAt] using this

/-- C8: `percentile` is monotone in `p` on every sorted non-empty sample
list: for `0 ≤ p ≤ q ≤ 1`, `percentile l p ≤ percentile l q` — in
particular `p50 ≤ p90 ≤ p99` for any batch of attempts or costs. -/
theorem percentile_monotone (l : List ℚ) (p q : ℚ) (hne : l ≠ [])
    (hs : l.Sorted (· ≤ ·)) (hp : 0 ≤ p) (hpq : p ≤ q) (hq : q ≤ 1) :
    percentile l p ≤ percentile l q := by
  have hlen : ¬ l.length = 0 := fun h => hne (List.length_eq_zero.mp h)
  rw [percentile, percentile, if_neg hlen, if_neg hlen]
  have h1 : 1 ≤ l.length := Nat.one_le_iff_ne_zero.mpr hlen
  have hn1 : 0 ≤ (l.length : ℚ) - 1 := by
    have hc : (1 : ℚ) ≤ (l.length : ℚ) := by exact_mod_cast h1
    linarith
  refine interpAt_mono l hs _ _ (mul_nonneg hn1 hp) (mul_le_mul_of_nonneg_left hpq hn1) ?_
  calc ((l.length : ℚ) - 1) * q ≤ ((l.length : ℚ) - 1) * 1 :=
        mul_le_mul_of_nonneg_left hq hn1
    _ = (l.length : ℚ) - 1 := mul_one _

/-- C8 (witness): monotonicity on the concrete sorted batch `[1, 2, 3]`
between the median position and the 90th percentile. -/
theorem percentile_monotone_witness :
    percentile [1, 2, 3] (1 / 2) ≤ percentile [1, 2, 3] (9 / 10) :=
  percentile_monotone [1, 2, 3] (1 / 2) (9 / 10) (by decide) (by decide)
    (by norm_num) (by norm_num) (by norm_num)
